import Mathlib

/-!
Shallow embedding of the MuJoCo elasticity `solid` plugin
(`plugin/elasticity/solid.cc`) and proofs about it.

Modelling conventions:
* the machine scalar `mjtNum` is modelled by `ℚ` (idealized arithmetic);
* host-owned flat arrays (`body_pos`, `xpos`, `flexedge_length`, ...) are
  modelled by total functions from indices to values;
* the `std::vector` members of `Solid` are Lean lists, accessed with
  `List.getD` (the in-bounds invariant is proved separately);
* the `std::unordered_map<pair,int>` of `CreateStencils` maps each
  normalized vertex pair to its index in the `edges` vector, so it is
  represented by the `edges` list itself: lookup is membership /
  `indexOf`, `insert({pair, ne})` with `ne = edges.length` is append.
-/

namespace MujocoSolid

/-- local tetrahedron numbering, table `edge[kNumEdges][2]`. -/
def edge : Fin 6 → Fin 2 → Fin 4 :=
![![0, 1], ![1, 2], ![2, 0], ![2, 3], ![0, 3], ![1, 3]]

/-- table `face[kNumVerts][3]`. -/
def face : Fin 4 → Fin 3 → Fin 4 :=
![![2, 1, 0], ![0, 1, 3], ![1, 2, 3], ![2, 0, 3]]

/-- table `e2f[kNumEdges][2]`. -/
def e2f : Fin 6 → Fin 2 → Fin 4 :=
![![2, 3], ![1, 3], ![2, 1], ![1, 0], ![0, 2], ![0, 3]]

/-- a 3-vector of `mjtNum`. -/
abbrev Vec3 := Fin 3 → ℚ

/-- `mju_sub3`. -/
def mju_sub3 (a b : Vec3) : Vec3 := fun i => a i - b i

/-- `mju_cross`. -/
def mju_cross (a b : Vec3) : Vec3 :=
![a 1 * b 2 - a 2 * b 1, a 2 * b 0 - a 0 * b 2, a 0 * b 1 - a 1 * b 0]

/-- `mju_dot3`. -/
def mju_dot3 (a b : Vec3) : ℚ := a 0 * b 0 + a 1 * b 1 + a 2 * b 2

/-- volume of a tetrahedron (`ComputeVolume`); `x` maps a global vertex
index to its position, `v` are the four vertex indices. -/
def ComputeVolume (x : ℤ → Vec3) (v : Fin 4 → ℤ) : ℚ :=
mju_dot3
  (mju_cross (mju_sub3 (x (v 2)) (x (v 0))) (mju_sub3 (x (v 1)) (x (v 0))))
  (mju_sub3 (x (v 3)) (x (v 0))) / 6

/-- compute local basis (`ComputeBasis`): symmetrized tensor product of
the area normals of the two faces not adjacent to the edge. -/
def ComputeBasis (x : ℤ → Vec3) (v : Fin 4 → ℤ) (faceL faceR : Fin 3 → Fin 4)
    (volume : ℚ) : Fin 3 → Fin 3 → ℚ := fun i j =>
  let normalL := mju_cross (mju_sub3 (x (v (faceL 1))) (x (v (faceL 0))))
    (mju_sub3 (x (v (faceL 2))) (x (v (faceL 0))))
  let normalR := mju_cross (mju_sub3 (x (v (faceR 1))) (x (v (faceR 0))))
    (mju_sub3 (x (v (faceR 2))) (x (v (faceR 0))))
  (normalL i * normalR j + normalR i * normalL j) / (36 * 2 * volume * volume)

/-- gradients of squared edge lengths with respect to the two endpoint
positions (`GradSquaredLengths`). -/
def GradSquaredLengths (x : ℤ → Vec3) (v : Fin 4 → ℤ) :
    Fin 6 → Fin 2 → Fin 3 → ℚ := fun e k d =>
  if k = 0 then x (v (edge e 0)) d - x (v (edge e 1)) d
  else x (v (edge e 1)) d - x (v (edge e 0)) d

/-- the normalized `(min, max)` vertex pair built for each local edge in
`Solid::CreateStencils`. -/
def normPair (a b : ℤ) : ℤ × ℤ := (min a b, max a b)

/-- one entry of the `elements` vector: 4 global vertex indices and 6
global edge ids (`Stencil3D`). -/
structure Element where
  vertices : Fin 4 → ℤ
  edges : Fin 6 → ℕ

instance : Inhabited Element := ⟨⟨fun _ => 0, fun _ => 0⟩⟩

/-- index of the first occurrence of `p` in a list (the id stored in the
`edge_indices` map for an already-present pair). -/
def idxOf (p : ℤ × ℤ) : List (ℤ × ℤ) → ℕ
  | [] => 0
  | q :: l => if q = p then 0 else idxOf p l + 1

/-- the edge-id assignment loop of `Solid::CreateStencils`: `seen` is the
`edges` vector so far (also playing the role of the `edge_indices` map:
a pair's id is its index in `seen`, and the running counter `ne` equals
`seen.length`).  Returns the id assigned to each pair occurrence in
order, together with the final `edges` vector. -/
def assignIds : List (ℤ × ℤ) → List (ℤ × ℤ) → List ℕ × List (ℤ × ℤ)
  | seen, [] => ([], seen)
  | seen, p :: ps =>
    if p ∈ seen then
      let r := assignIds seen ps
      (idxOf p seen :: r.1, r.2)
    else
      let r := assignIds (seen ++ [p]) ps
      (seen.length :: r.1, r.2)

/-- vertices of tetrahedron `t`: `simplex[kNumVerts*t+v]`. -/
def tetVertices (simplex : List ℤ) (t : ℕ) : Fin 4 → ℤ :=
fun v => simplex.getD (4 * t + v) 0

/-- the six normalized vertex pairs of one tetrahedron, in local edge
order. -/
def tetPairs (vf : Fin 4 → ℤ) : List (ℤ × ℤ) :=
(List.finRange 6).map fun e => normPair (vf (edge e 0)) (vf (edge e 1))

/-- all normalized vertex pairs visited by the double loop of
`Solid::CreateStencils`, in visit order (`t` outer, `e` inner). -/
def allPairs (simplex : List ℤ) : List (ℤ × ℤ) :=
(List.range (simplex.length / 4)).flatMap fun t => tetPairs (tetVertices simplex t)

/-- output of `Solid::CreateStencils`. -/
structure Stencil where
  nt : ℕ
  elements : List Element
  edges : List (ℤ × ℤ)
  ne : ℕ

/-- `Solid::CreateStencils`.  The `Bool` records whether every
`assert(elements[t].edges[e] == edgeidx[kNumEdges*t+e])` check passes
(vacuously true when `edgeidx` is empty, as in the source). -/
def CreateStencils (simplex edgeidx : List ℤ) : Stencil × Bool :=
  let nt := simplex.length / 4
  let r := assignIds [] (allPairs simplex)
  let elements := (List.range nt).map fun t =>
    Element.mk (tetVertices simplex t) (fun e => r.1.getD (6 * t + e.val) 0)
  let ok := edgeidx.isEmpty ||
    ((List.range nt).all fun t => (List.finRange 6).all fun e =>
      ((r.1.getD (6 * t + e.val) 0 : ℤ) == edgeidx.getD (6 * t + e.val) 0))
  (⟨nt, elements, r.2, r.2.length⟩, ok)

/-- one step of first-occurrence deduplication. -/
def dedupStep (acc : List (ℤ × ℤ)) (p : ℤ × ℤ) : List (ℤ × ℤ) :=
if p ∈ acc then acc else acc ++ [p]

/-- the distinct pairs of a list in first-seen order. -/
def firstSeen (ps : List (ℤ × ℤ)) : List (ℤ × ℤ) := ps.foldl dedupStep []

/-- instance state of the plugin (`class Solid`). -/
structure Solid where
  f0 : ℤ
  damping : ℚ
  nt : ℕ
  elements : List Element
  edges : List (ℤ × ℤ)
  ne : ℕ
  metric : ℕ → Fin 6 → Fin 6 → ℚ
  reference : List ℚ
  previous : List ℚ
  deformed : List ℚ

/-- Modelled from the spec: `UpdateSquaredLengths` is declared in
`elasticity.h`, which is not among this repository's source files.  Spec
section 4.4 step 1: recompute, for every edge, the squared Euclidean
length between its two endpoint positions. -/
def UpdateSquaredLengths (edges : List (ℤ × ℤ)) (x : ℤ → Vec3) : List ℚ :=
edges.map fun p => mju_dot3 (mju_sub3 (x p.1) (x p.2)) (mju_sub3 (x p.1) (x p.2))

/-- basis tensor of local edge `e` (the `ComputeBasis` call site in the
constructor, with the two faces not adjacent to the edge). -/
def basisOf (x : ℤ → Vec3) (v : Fin 4 → ℤ) (e : Fin 6) : Fin 3 → Fin 3 → ℚ :=
ComputeBasis x v (face (e2f e 0)) (face (e2f e 1)) (ComputeVolume x v)

/-- first invariant `trT[e]`: trace of the basis tensor. -/
def trT (x : ℤ → Vec3) (v : Fin 4 → ℤ) (e : Fin 6) : ℚ :=
∑ i : Fin 3, basisOf x v e i i

/-- second invariant `trTT[kNumEdges*ed1+ed2]`. -/
def trTT (x : ℤ → Vec3) (v : Fin 4 → ℤ) (ed1 ed2 : Fin 6) : ℚ :=
∑ i : Fin 3, ∑ j : Fin 3, basisOf x v ed1 i j * basisOf x v ed2 j i

/-- one entry of the assembled strain metric tensor of a tetrahedron
(constructor lines: `mu`, `la`, and the assembly loop). -/
def metricEntry (x : ℤ → Vec3) (v : Fin 4 → ℤ) (E nu : ℚ) (ed1 ed2 : Fin 6) : ℚ :=
  let volume := ComputeVolume x v
  let mu := E / (2 * (1 + nu)) * volume
  let la := E * nu / ((1 + nu) * (1 - 2 * nu)) * volume
  mu * trTT x v ed1 ed2 + la * trT x v ed2 * trT x v ed1

/-- the flat index `kNumEdges*kNumEdges*t + kNumEdges*ed1 + ed2` used to
address the `metric` vector. -/
def metricIndex (t : ℕ) (ed1 ed2 : Fin 6) : ℕ := 36 * t + 6 * ed1.val + ed2.val

/-- the plugin constructor `Solid::Solid`: build stencils, assemble the
metric, and initialize the squared-length arrays (`reference` from the
rest positions `x0`, `previous = reference`, `deformed` zero-filled by
`assign(ne, 0)`). -/
def Solid.construct (f0 : ℤ) (nu E damp : ℚ) (x0 : ℤ → Vec3)
    (simplex edgeidx : List ℤ) : Solid :=
  let st := (CreateStencils simplex edgeidx).1
  { f0 := f0, damping := damp, nt := st.nt, elements := st.elements,
    edges := st.edges, ne := st.ne,
    metric := fun t ed1 ed2 =>
      metricEntry x0 ((st.elements.getD t default).vertices) E nu ed1 ed2,
    reference := UpdateSquaredLengths st.edges x0,
    deformed := List.replicate st.ne 0,
    previous := UpdateSquaredLengths st.edges x0 }

/-- the elongation of local edge `e` of element `t` as computed in
`Solid::Compute`; `dfm` is the deformed squared-length array in use for
this step, `h` is `m->opt.timestep`, `flexAdr` is
`m->flex_edgeadr[f0]`, `flexLen`/`flexLen0` are `d->flexedge_length` and
`m->flexedge_length0`. -/
def Solid.elongation (s : Solid) (dfm : List ℚ) (h : ℚ) (flexAdr : ℕ)
    (flexLen flexLen0 : ℕ → ℚ) (t : ℕ) (e : Fin 6) : ℚ :=
  if s.f0 < 0 then
    let idx := (s.elements.getD t default).edges e
    let kD := s.damping / h
    dfm.getD idx 0 - s.reference.getD idx 0 +
      (dfm.getD idx 0 - s.previous.getD idx 0) * kD
  else
    let idx := (s.elements.getD t default).edges e + flexAdr
    let dfmHost := flexLen idx * flexLen idx
    let refHost := flexLen0 idx * flexLen0 idx
    dfmHost - refHost

/-- the local force accumulated for vertex slot `w`, coordinate `d`, of
element `t` (the `force[kNumVerts*3]` accumulation loop of
`Solid::Compute`): each loop iteration `(ed1, ed2, i)` adds its term to
`force[3*edge[ed2][i]+x]`, so slot `w` receives exactly the terms whose
`edge[ed2][i]` equals `w`. -/
def Solid.localForce (s : Solid) (x : ℤ → Vec3) (dfm : List ℚ) (h : ℚ)
    (flexAdr : ℕ) (flexLen flexLen0 : ℕ → ℚ) (t : ℕ) (w : Fin 4) (d : Fin 3) : ℚ :=
  let v := (s.elements.getD t default).vertices
  ∑ ed1 : Fin 6, ∑ ed2 : Fin 6, ∑ i : Fin 2,
    if edge ed2 i = w then
      s.elongation dfm h flexAdr flexLen flexLen0 t ed1 *
        GradSquaredLengths x v ed2 i d * s.metric t ed1 ed2
    else 0

/-- `Solid::Compute`: refresh `deformed` when there is no flex, subtract
every element's local force from `qfrc_passive` at
`m->body_dofadr[i0] + 3*v[i] + x` (`dofadr` is `m->body_dofadr[i0]`),
and finally set `previous := deformed` in free-point mode.  Returns the
updated instance state and generalized-force array. -/
def Solid.Compute (s : Solid) (x : ℤ → Vec3) (h : ℚ) (dofadr : ℤ)
    (flexAdr : ℕ) (flexLen flexLen0 : ℕ → ℚ) (qfrc : ℤ → ℚ) :
    Solid × (ℤ → ℚ) :=
  let dfm := if s.f0 < 0 then UpdateSquaredLengths s.edges x else s.deformed
  let qfrc' := fun z => qfrc z -
    ∑ t ∈ Finset.range s.nt, ∑ w : Fin 4, ∑ d : Fin 3,
      (if dofadr + 3 * ((s.elements.getD t default).vertices w) + (d.val : ℤ) = z
       then s.localForce x dfm h flexAdr flexLen flexLen0 t w d else 0)
  let prev' := if s.f0 < 0 then dfm else s.previous
  ({ s with deformed := dfm, previous := prev' }, qfrc')

/-- the free-point elongation formula in the words of the spec:
`elongation = deformed - reference + damping_term` with
`damping_term = (deformed - previous) * (dampingCoefficient / timestep)`. -/
def spec_elongation_free (deformed reference previous dampingCoefficient timestep : ℚ) : ℚ :=
deformed - reference + (deformed - previous) * (dampingCoefficient / timestep)

/-- the host-native (flex) elongation formula in the words of the spec:
the square of the host's current edge length minus the square of the
host's rest edge length, with no damping term. -/
def spec_elongation_flex (curLength restLength : ℚ) : ℚ :=
curLength * curLength - restLength * restLength

/-- the in-bounds invariant of an instance: the edge list has length
`ne`, every per-edge array has length `ne`, every element's six edge ids
are `< ne`, and the flat metric index of every element stays below
`36 * nt`. -/
def WellFormed (s : Solid) : Prop :=
  s.elements.length = s.nt ∧
  s.edges.length = s.ne ∧
  s.reference.length = s.ne ∧
  s.previous.length = s.ne ∧
  s.deformed.length = s.ne ∧
  (∀ t ∈ List.range s.nt, ∀ e : Fin 6, (s.elements.getD t default).edges e < s.ne) ∧
  (∀ t ∈ List.range s.nt, ∀ ed1 ed2 : Fin 6, metricIndex t ed1 ed2 < 36 * s.nt)

instance (s : Solid) : Decidable (WellFormed s) := by
  unfold WellFormed
  infer_instance

/-! ### Lemmas about `idxOf` -/

lemma idxOf_append_of_mem {a : ℤ × ℤ} {l₁ : List (ℤ × ℤ)} (l₂ : List (ℤ × ℤ))
    (h : a ∈ l₁) : idxOf a (l₁ ++ l₂) = idxOf a l₁ := by
  induction l₁ with
  | nil => simp at h
  | cons q l ih =>
    by_cases hq : q = a
    · simp [idxOf, hq]
    · have ha : a ∈ l := by
        rcases List.mem_cons.1 h with rfl | h
        · exact absurd rfl hq
        · exact h
      simp [idxOf, hq, ih ha]

lemma idxOf_append_singleton {a : ℤ × ℤ} {l : List (ℤ × ℤ)} (h : a ∉ l) :
    idxOf a (l ++ [a]) = l.length := by
  induction l with
  | nil => simp [idxOf]
  | cons q l ih =>
    have hq : ¬ q = a := fun e => h (List.mem_cons.2 (Or.inl e.symm))
    simp [idxOf, hq, ih fun hm => h (List.mem_cons_of_mem _ hm)]

lemma idxOf_lt_length {a : ℤ × ℤ} {l : List (ℤ × ℤ)} (h : a ∈ l) :
    idxOf a l < l.length := by
  induction l with
  | nil => simp at h
  | cons q l ih =>
    by_cases hq : q = a
    · simp [idxOf, hq]
    · have ha : a ∈ l := by
        rcases List.mem_cons.1 h with rfl | h
        · exact absurd rfl hq
        · exact h
      simp only [idxOf, if_neg hq, List.length_cons]
      exact Nat.succ_lt_succ (ih ha)

lemma idxOf_getElem {l : List (ℤ × ℤ)} (hn : l.Nodup) (i : ℕ) (hi : i < l.length) :
    idxOf (l.get ⟨i, hi⟩) l = i := by
  induction l generalizing i with
  | nil => simp at hi
  | cons q l ih =>
    cases i with
    | zero => simp [idxOf]
    | succ i =>
      have hi' : i < l.length := by simpa using hi
      have hget : (q :: l).get ⟨i + 1, hi⟩ = l.get ⟨i, hi'⟩ := rfl
      have hmem : l.get ⟨i, hi'⟩ ∈ l := l.get_mem i hi'
      have hq : ¬ q = l.get ⟨i, hi'⟩ := fun e => ((List.nodup_cons.1 hn).1 (e ▸ hmem))
      rw [hget]
      simp only [idxOf, if_neg hq]
      rw [ih (List.nodup_cons.1 hn).2 i hi']

/-! ### Lemmas about the edge-id assignment loop -/

lemma assignIds_snd (seen ps : List (ℤ × ℤ)) :
    (assignIds seen ps).2 = ps.foldl dedupStep seen := by
  induction ps generalizing seen with
  | nil => rfl
  | cons p ps ih =>
    by_cases hp : p ∈ seen <;>
      simp [assignIds, hp, List.foldl_cons, dedupStep, ih]

lemma assignIds_fst_length (seen ps : List (ℤ × ℤ)) :
    (assignIds seen ps).1.length = ps.length := by
  induction ps generalizing seen with
  | nil => rfl
  | cons p ps ih => by_cases hp : p ∈ seen <;> simp [assignIds, hp, ih]

lemma foldl_dedupStep_extend (seen ps : List (ℤ × ℤ)) :
    ∃ tl, ps.foldl dedupStep seen = seen ++ tl := by
  induction ps generalizing seen with
  | nil => exact ⟨[], by simp⟩
  | cons p ps ih =>
    by_cases hp : p ∈ seen
    · simpa [List.foldl_cons, dedupStep, hp] using ih seen
    · obtain ⟨tl, htl⟩ := ih (seen ++ [p])
      exact ⟨p :: tl, by simpa [List.foldl_cons, dedupStep, hp] using htl⟩

lemma mem_foldl_dedupStep (x : ℤ × ℤ) (seen ps : List (ℤ × ℤ)) :
    x ∈ ps.foldl dedupStep seen ↔ x ∈ seen ∨ x ∈ ps := by
  induction ps generalizing seen with
  | nil => simp
  | cons p ps ih =>
    rw [List.foldl_cons]
    simp only [dedupStep]
    by_cases hp : p ∈ seen
    · rw [if_pos hp, ih]
      constructor
      · rintro (h | h)
        · exact Or.inl h
        · exact Or.inr (List.mem_cons_of_mem _ h)
      · rintro (h | h)
        · exact Or.inl h
        · rcases List.mem_cons.1 h with rfl | h
          · exact Or.inl hp
          · exact Or.inr h
    · rw [if_neg hp, ih]
      simp only [List.mem_append, List.mem_singleton, List.mem_cons]
      tauto

lemma nodup_foldl_dedupStep (seen ps : List (ℤ × ℤ)) (h : seen.Nodup) :
    (ps.foldl dedupStep seen).Nodup := by
  induction ps generalizing seen with
  | nil => exact h
  | cons p ps ih =>
    rw [List.foldl_cons]
    simp only [dedupStep]
    by_cases hp : p ∈ seen
    · rw [if_pos hp]; exact ih seen h
    · rw [if_neg hp]
      refine ih _ ?_
      simp [List.nodup_append, h, hp]

/-- the id handed out for the `k`-th pair occurrence is the index of that
pair in the final deduplicated edge list. -/
lemma assignIds_fst_getD (ps : List (ℤ × ℤ)) :
    ∀ seen : List (ℤ × ℤ), seen.Nodup → ∀ k, k < ps.length →
    (assignIds seen ps).1.getD k 0 =
      idxOf (ps.getD k (0, 0)) (ps.foldl dedupStep seen) := by
  induction ps with
  | nil => intro seen _ k hk; simp at hk
  | cons p ps ih =>
    intro seen hseen k hk
    by_cases hp : p ∈ seen
    · have hunfold : (assignIds seen (p :: ps)).1 =
          idxOf p seen :: (assignIds seen ps).1 := by
        simp [assignIds, hp]
      have hfold : (p :: ps).foldl dedupStep seen = ps.foldl dedupStep seen := by
        rw [List.foldl_cons]; simp only [dedupStep]; rw [if_pos hp]
      cases k with
      | zero =>
        rw [hunfold, hfold]
        obtain ⟨tl, htl⟩ := foldl_dedupStep_extend seen ps
        rw [htl, List.getD_cons_zero, List.getD_cons_zero,
          idxOf_append_of_mem tl hp]
      | succ k =>
        rw [hunfold, hfold, List.getD_cons_succ, List.getD_cons_succ]
        exact ih seen hseen k (by simpa using hk)
    · have hunfold : (assignIds seen (p :: ps)).1 =
          seen.length :: (assignIds (seen ++ [p]) ps).1 := by
        simp [assignIds, hp]
      have hfold : (p :: ps).foldl dedupStep seen =
          ps.foldl dedupStep (seen ++ [p]) := by
        rw [List.foldl_cons]; simp only [dedupStep]; rw [if_neg hp]
      have hnodup : (seen ++ [p]).Nodup := by
        simp [List.nodup_append, hseen, hp]
      cases k with
      | zero =>
        rw [hunfold, hfold]
        obtain ⟨tl, htl⟩ := foldl_dedupStep_extend (seen ++ [p]) ps
        rw [htl, List.getD_cons_zero, List.getD_cons_zero,
          idxOf_append_of_mem tl (by simp), idxOf_append_singleton hp]
      | succ k =>
        rw [hunfold, hfold, List.getD_cons_succ, List.getD_cons_succ]
        exact ih (seen ++ [p]) hnodup k (by simpa using hk)

lemma assignIds_nil_getD (ps : List (ℤ × ℤ)) (k : ℕ) (hk : k < ps.length) :
    (assignIds [] ps).1.getD k 0 =
      idxOf (ps.getD k (0, 0)) (firstSeen ps) :=
  assignIds_fst_getD ps [] List.nodup_nil k hk

/-! ### Indexing the flattened pair list -/

lemma length_flatMap_range {α : Type} (f : ℕ → List α) (c : ℕ)
    (hf : ∀ t, (f t).length = c) (n : ℕ) :
    ((List.range n).flatMap f).length = c * n := by
  induction n with
  | zero => simp
  | succ n ih =>
    rw [List.range_succ, List.flatMap_append, List.length_append, ih]
    simp [hf, Nat.mul_succ]

lemma getD_flatMap_range {α : Type} (f : ℕ → List α) (c : ℕ)
    (hf : ∀ t, (f t).length = c) (n t : ℕ) (ht : t < n) (i : ℕ) (hi : i < c)
    (d : α) :
    ((List.range n).flatMap f).getD (c * t + i) d = (f t).getD i d := by
  induction n with
  | zero => omega
  | succ n ih =>
    rw [List.range_succ, List.flatMap_append]
    rcases Nat.lt_or_ge t n with h | h
    · have hb : c * t + i < ((List.range n).flatMap f).length := by
        rw [length_flatMap_range f c hf]
        calc c * t + i < c * t + c := by omega
        _ = c * (t + 1) := by ring
        _ ≤ c * n := Nat.mul_le_mul_left c h
      rw [List.getD_append _ _ _ _ hb]
      exact ih h
    · have ht' : t = n := by omega
      subst ht'
      have hlen : ((List.range t).flatMap f).length = c * t :=
        length_flatMap_range f c hf t
      rw [List.getD_append_right _ _ _ _ (by omega), hlen]
      have hsub : c * t + i - c * t = i := by omega
      rw [hsub]
      simp

lemma length_allPairs (simplex : List ℤ) :
    (allPairs simplex).length = 6 * (simplex.length / 4) :=
  length_flatMap_range _ 6 (fun t => by simp [tetPairs]) _

/-- the normalized pair of local edge `e` of tetrahedron `t`. -/
lemma getD_allPairs (simplex : List ℤ) (t : ℕ) (ht : t < simplex.length / 4)
    (e : Fin 6) :
    (allPairs simplex).getD (6 * t + e.val) (0, 0) =
      normPair (tetVertices simplex t (edge e 0)) (tetVertices simplex t (edge e 1)) := by
  rw [allPairs, getD_flatMap_range _ 6 (fun t => by simp [tetPairs]) _ t ht e.val e.isLt]
  fin_cases e <;> rfl

/-! ### Unfolding `CreateStencils` -/

lemma CreateStencils_edges (simplex edgeidx : List ℤ) :
    (CreateStencils simplex edgeidx).1.edges = firstSeen (allPairs simplex) := by
  show (assignIds [] (allPairs simplex)).2 = _
  rw [assignIds_snd]; rfl

lemma CreateStencils_ne (simplex edgeidx : List ℤ) :
    (CreateStencils simplex edgeidx).1.ne = (firstSeen (allPairs simplex)).length := by
  show (assignIds [] (allPairs simplex)).2.length = _
  rw [assignIds_snd]; rfl

lemma CreateStencils_elements_getD (simplex edgeidx : List ℤ) (t : ℕ)
    (ht : t < simplex.length / 4) :
    (CreateStencils simplex edgeidx).1.elements.getD t default =
      Element.mk (tetVertices simplex t)
        (fun e => (assignIds [] (allPairs simplex)).1.getD (6 * t + e.val) 0) := by
  show ((List.range (simplex.length / 4)).map _).getD t default = _
  rw [List.getD_eq_getElem?_getD, List.getElem?_map, List.getElem?_range ht]
  rfl

/-- the id stored for `(t, e)` is the index of the normalized pair in the
first-seen edge list. -/
lemma edgeId_eq_idxOf (simplex edgeidx : List ℤ) (t : ℕ)
    (ht : t < simplex.length / 4) (e : Fin 6) :
    ((CreateStencils simplex edgeidx).1.elements.getD t default).edges e =
      idxOf (normPair (tetVertices simplex t (edge e 0)) (tetVertices simplex t (edge e 1)))
        (firstSeen (allPairs simplex)) := by
  rw [CreateStencils_elements_getD simplex edgeidx t ht]
  have hidx : 6 * t + e.val < (allPairs simplex).length := by
    rw [length_allPairs]
    have := e.isLt
    omega
  show (assignIds [] (allPairs simplex)).1.getD (6 * t + e.val) 0 = _
  rw [assignIds_nil_getD _ _ hidx, getD_allPairs simplex t ht e]

lemma tetPair_mem_allPairs (simplex : List ℤ) (t : ℕ)
    (ht : t < simplex.length / 4) (e : Fin 6) :
    normPair (tetVertices simplex t (edge e 0)) (tetVertices simplex t (edge e 1)) ∈
      allPairs simplex := by
  have hidx : 6 * t + e.val < (allPairs simplex).length := by
    rw [length_allPairs]
    have := e.isLt
    omega
  rw [← getD_allPairs simplex t ht e, List.getD_eq_getElem _ _ hidx]
  exact List.getElem_mem hidx

lemma mem_firstSeen (x : ℤ × ℤ) (ps : List (ℤ × ℤ)) :
    x ∈ firstSeen ps ↔ x ∈ ps := by
  rw [firstSeen, mem_foldl_dedupStep]
  simp

lemma nodup_firstSeen (ps : List (ℤ × ℤ)) : (firstSeen ps).Nodup :=
  nodup_foldl_dedupStep [] ps List.nodup_nil

/-! ### Unordered pairs -/

/-- a vertex pair, forgetting order. -/
def pairSym (p : ℤ × ℤ) : Sym2 ℤ := s(p.1, p.2)

/-- the multiset of unordered vertex pairs visited by the stencil loops,
one entry per (tetrahedron, local edge) occurrence, without the source's
min/max normalization. -/
def allUnorderedPairs (simplex : List ℤ) : List (Sym2 ℤ) :=
(List.range (simplex.length / 4)).flatMap fun t =>
  (List.finRange 6).map fun e =>
    s(tetVertices simplex t (edge e 0), tetVertices simplex t (edge e 1))

lemma pairSym_normPair (a b : ℤ) : pairSym (normPair a b) = s(a, b) := by
  rcases le_total a b with h | h
  · simp [pairSym, normPair, min_eq_left h, max_eq_right h]
  · rw [pairSym, normPair]
    simp only [min_eq_right h, max_eq_left h]
    exact Sym2.eq_swap

lemma normPair_fst_le_snd (a b : ℤ) : (normPair a b).1 ≤ (normPair a b).2 :=
  min_le_max

lemma pairSym_inj_of_norm {p q : ℤ × ℤ} (hp : p.1 ≤ p.2) (hq : q.1 ≤ q.2)
    (h : pairSym p = pairSym q) : p = q := by
  rcases Sym2.eq_iff.1 h with ⟨h1, h2⟩ | ⟨h1, h2⟩
  · exact Prod.ext h1 h2
  · exact Prod.ext (by omega) (by omega)

lemma normPair_eq_of_sym {a b c d : ℤ} (h : s(a, b) = s(c, d)) :
    normPair a b = normPair c d :=
  pairSym_inj_of_norm (normPair_fst_le_snd a b) (normPair_fst_le_snd c d)
    (by rw [pairSym_normPair, pairSym_normPair]; exact h)

lemma mem_allPairs_norm {simplex : List ℤ} {p : ℤ × ℤ}
    (hp : p ∈ allPairs simplex) : p.1 ≤ p.2 := by
  rw [allPairs] at hp
  simp only [List.mem_flatMap, List.mem_range, tetPairs, List.mem_map] at hp
  obtain ⟨t, -, e, -, rfl⟩ := hp
  exact normPair_fst_le_snd _ _

lemma allUnorderedPairs_eq_map (simplex : List ℤ) :
    allUnorderedPairs simplex = (allPairs simplex).map pairSym := by
  rw [allPairs, allUnorderedPairs, List.map_flatMap]
  congr 1
  funext t
  rw [tetPairs, List.map_map]
  congr 1
  funext e
  exact (pairSym_normPair _ _).symm

lemma toFinset_firstSeen (ps : List (ℤ × ℤ)) :
    (firstSeen ps).toFinset = ps.toFinset := by
  ext x
  simp [List.mem_toFinset, mem_firstSeen]

/-- the deduplicated edge list has exactly one entry per distinct
unordered vertex pair. -/
lemma firstSeen_length_eq_card (simplex : List ℤ) :
    (firstSeen (allPairs simplex)).length = (allUnorderedPairs simplex).toFinset.card := by
  have hinj : Set.InjOn pairSym ((allPairs simplex).toFinset : Set (ℤ × ℤ)) := by
    intro p hp q hq h
    exact pairSym_inj_of_norm
      (mem_allPairs_norm (List.mem_toFinset.1 (Finset.mem_coe.1 hp)))
      (mem_allPairs_norm (List.mem_toFinset.1 (Finset.mem_coe.1 hq))) h
  have himg : (allPairs simplex).toFinset.image pairSym =
      ((allPairs simplex).map pairSym).toFinset := by
    ext y
    simp [List.mem_toFinset, List.mem_map, Finset.mem_image]
  rw [← List.toFinset_card_of_nodup (nodup_firstSeen _), toFinset_firstSeen,
    allUnorderedPairs_eq_map, ← himg, Finset.card_image_of_injOn hinj]

/-- C1: the stencil builder assigns equal ids exactly to occurrences of
equal unordered vertex pairs; the edge count equals the number of
distinct unordered pairs; the ids are the positions in the first-seen
ordered, duplicate-free edge list, they are all `< ne`, and every id
`< ne` is attained. -/
theorem C1_stencil_edge_ids (simplex edgeidx : List ℤ) :
    (∀ t1 t2 : ℕ, ∀ e1 e2 : Fin 6,
      t1 < (CreateStencils simplex edgeidx).1.nt →
      t2 < (CreateStencils simplex edgeidx).1.nt →
      s(tetVertices simplex t1 (edge e1 0), tetVertices simplex t1 (edge e1 1)) =
        s(tetVertices simplex t2 (edge e2 0), tetVertices simplex t2 (edge e2 1)) →
      ((CreateStencils simplex edgeidx).1.elements.getD t1 default).edges e1 =
        ((CreateStencils simplex edgeidx).1.elements.getD t2 default).edges e2) ∧
    (CreateStencils simplex edgeidx).1.edges.length =
      (allUnorderedPairs simplex).toFinset.card ∧
    (CreateStencils simplex edgeidx).1.edges = firstSeen (allPairs simplex) ∧
    (CreateStencils simplex edgeidx).1.edges.Nodup ∧
    (∀ t : ℕ, ∀ e : Fin 6, t < (CreateStencils simplex edgeidx).1.nt →
      ((CreateStencils simplex edgeidx).1.elements.getD t default).edges e =
        idxOf (normPair (tetVertices simplex t (edge e 0)) (tetVertices simplex t (edge e 1)))
          (CreateStencils simplex edgeidx).1.edges ∧
      ((CreateStencils simplex edgeidx).1.elements.getD t default).edges e <
        (CreateStencils simplex edgeidx).1.ne) ∧
    (∀ j : ℕ, j < (CreateStencils simplex edgeidx).1.ne →
      ∃ t : ℕ, ∃ e : Fin 6, t < (CreateStencils simplex edgeidx).1.nt ∧
        ((CreateStencils simplex edgeidx).1.elements.getD t default).edges e = j) := by
  have hnt : (CreateStencils simplex edgeidx).1.nt = simplex.length / 4 := rfl
  refine ⟨?_, ?_, CreateStencils_edges simplex edgeidx, ?_, ?_, ?_⟩
  · intro t1 t2 e1 e2 ht1 ht2 hpair
    rw [hnt] at ht1 ht2
    rw [edgeId_eq_idxOf simplex edgeidx t1 ht1 e1,
      edgeId_eq_idxOf simplex edgeidx t2 ht2 e2,
      normPair_eq_of_sym hpair]
  · rw [CreateStencils_edges simplex edgeidx]
    exact firstSeen_length_eq_card simplex
  · rw [CreateStencils_edges simplex edgeidx]
    exact nodup_firstSeen _
  · intro t e ht
    rw [hnt] at ht
    refine ⟨by rw [edgeId_eq_idxOf simplex edgeidx t ht e,
      CreateStencils_edges simplex edgeidx], ?_⟩
    rw [edgeId_eq_idxOf simplex edgeidx t ht e, CreateStencils_ne simplex edgeidx]
    exact idxOf_lt_length ((mem_firstSeen _ _).2 (tetPair_mem_allPairs simplex t ht e))
  · intro j hj
    rw [CreateStencils_ne simplex edgeidx] at hj
    have hmem : (firstSeen (allPairs simplex)).get ⟨j, hj⟩ ∈ allPairs simplex :=
      (mem_firstSeen _ _).1 ((firstSeen (allPairs simplex)).get_mem j hj)
    obtain ⟨k, hk, hkeq⟩ := List.mem_iff_getElem.1 hmem
    rw [length_allPairs] at hk
    have ht : k / 6 < simplex.length / 4 := Nat.div_lt_of_lt_mul (by omega)
    have he : k % 6 < 6 := Nat.mod_lt _ (by norm_num)
    refine ⟨k / 6, ⟨k % 6, he⟩, by rw [hnt]; exact ht, ?_⟩
    have hk6 : 6 * (k / 6) + k % 6 = k := by omega
    rw [edgeId_eq_idxOf simplex edgeidx _ ht _]
    have hgd : normPair (tetVertices simplex (k / 6) (edge ⟨k % 6, he⟩ 0))
        (tetVertices simplex (k / 6) (edge ⟨k % 6, he⟩ 1)) =
        (firstSeen (allPairs simplex)).get ⟨j, hj⟩ := by
      rw [← getD_allPairs simplex (k / 6) ht ⟨k % 6, he⟩]
      simp only [hk6]
      rw [List.getD_eq_getElem _ _ (by rw [length_allPairs]; omega)]
      rw [← hkeq]
    rw [hgd]
    exact idxOf_getElem (nodup_firstSeen _) j hj

/-- C1 witness: in the two-tetrahedron mesh `[0,1,2,3] ∪ [1,2,3,4]`, the
shared geometric edge `{1,2}` (local edge 1 of tetrahedron 0, local edge
0 of tetrahedron 1) receives the same id from both occurrences. -/
theorem C1_stencil_edge_ids_witness :
    ((CreateStencils [0, 1, 2, 3, 1, 2, 3, 4] []).1.elements.getD 0 default).edges 1 =
      ((CreateStencils [0, 1, 2, 3, 1, 2, 3, 4] []).1.elements.getD 1 default).edges 0 :=
  (C1_stencil_edge_ids [0, 1, 2, 3, 1, 2, 3, 4] []).1 0 1 1 0
    (by decide) (by decide) (by decide)

/-- C6: the stencil data is computed without ever consulting the
optional edge-id array (creation succeeds and produces the same stencil
for any supplied `edgeidx`, including none), and with no array supplied
the assertion-style consistency check trivially passes. -/
theorem C6_edgeidx_only_checked (simplex edgeidx : List ℤ) :
    (CreateStencils simplex edgeidx).1 = (CreateStencils simplex []).1 ∧
      (CreateStencils simplex []).2 = true :=
  ⟨rfl, rfl⟩

lemma take_four_length (simplex : List ℤ) :
    (simplex.take (4 * (simplex.length / 4))).length = 4 * (simplex.length / 4) := by
  rw [List.length_take]
  have h := Nat.div_mul_le_self simplex.length 4
  exact min_eq_left (by omega)

lemma tetVertices_take (simplex : List ℤ) (t : ℕ) (ht : t < simplex.length / 4) :
    tetVertices (simplex.take (4 * (simplex.length / 4))) t = tetVertices simplex t := by
  funext v
  rw [tetVertices, tetVertices, List.getD_eq_getElem?_getD, List.getD_eq_getElem?_getD,
    List.getElem?_take, if_pos (by have := v.isLt; omega)]

lemma allPairs_take (simplex : List ℤ) :
    allPairs (simplex.take (4 * (simplex.length / 4))) = allPairs simplex := by
  rw [allPairs, allPairs, take_four_length,
    Nat.mul_div_cancel_left _ (by norm_num : (0:ℕ) < 4),
    List.flatMap_def, List.flatMap_def]
  congr 1
  refine List.map_congr_left fun t ht => ?_
  rw [tetVertices_take simplex t (List.mem_range.1 ht)]

/-- C10: a trailing remainder of fewer than 4 vertex indices is silently
ignored: the stencil built from `simplex` is the stencil built from its
longest prefix of full tetrahedra, and exactly `⌊length/4⌋` elements are
created. -/
theorem C10_trailing_indices_ignored (simplex edgeidx : List ℤ) :
    (CreateStencils (simplex.take (4 * (simplex.length / 4))) edgeidx).1 =
      (CreateStencils simplex edgeidx).1 ∧
    (CreateStencils simplex edgeidx).1.nt = simplex.length / 4 ∧
    (CreateStencils simplex edgeidx).1.elements.length = simplex.length / 4 := by
  have hnt : (simplex.take (4 * (simplex.length / 4))).length / 4 = simplex.length / 4 := by
    rw [take_four_length]
    exact Nat.mul_div_cancel_left _ (by norm_num)
  refine ⟨?_, rfl, by simp [CreateStencils]⟩
  have hap := allPairs_take simplex
  show Stencil.mk _ _ _ _ = Stencil.mk _ _ _ _
  rw [Stencil.mk.injEq]
  refine ⟨hnt, ?_, by rw [hap], by rw [hap]⟩
  rw [hnt]
  refine List.map_congr_left fun t ht => ?_
  rw [tetVertices_take simplex t (List.mem_range.1 ht), hap]

/-! ### The metric tensor -/

lemma trTT_symm (x : ℤ → Vec3) (v : Fin 4 → ℤ) (ed1 ed2 : Fin 6) :
    trTT x v ed1 ed2 = trTT x v ed2 ed1 := by
  rw [trTT, trTT, Finset.sum_comm]
  exact Finset.sum_congr rfl fun i _ => Finset.sum_congr rfl fun j _ => mul_comm _ _

lemma metricEntry_symm (x : ℤ → Vec3) (v : Fin 4 → ℤ) (E nu : ℚ) (ed1 ed2 : Fin 6) :
    metricEntry x v E nu ed1 ed2 = metricEntry x v E nu ed2 ed1 := by
  simp only [metricEntry]
  rw [trTT_symm]
  ring

/-- C4: the assembled 6×6 metric of every tetrahedron is exactly
symmetric, for any rest positions and material parameters. -/
theorem C4_metric_symmetric (f0 : ℤ) (nu E damp : ℚ) (x0 : ℤ → Vec3)
    (simplex edgeidx : List ℤ) (t : ℕ) (ed1 ed2 : Fin 6) :
    (Solid.construct f0 nu E damp x0 simplex edgeidx).metric t ed1 ed2 =
      (Solid.construct f0 nu E damp x0 simplex edgeidx).metric t ed2 ed1 :=
  metricEntry_symm _ _ _ _ _ _

lemma metricEntry_doubleE (x : ℤ → Vec3) (v : Fin 4 → ℤ) (E nu : ℚ) (ed1 ed2 : Fin 6) :
    metricEntry x v (2 * E) nu ed1 ed2 = 2 * metricEntry x v E nu ed1 ed2 := by
  simp only [metricEntry]
  ring

lemma localForce_metric_scale (s1 s2 : Solid) (c : ℚ)
    (hf0 : s2.f0 = s1.f0) (hdamping : s2.damping = s1.damping)
    (helements : s2.elements = s1.elements)
    (href : s2.reference = s1.reference) (hprev : s2.previous = s1.previous)
    (hmetric : ∀ t ed1 ed2, s2.metric t ed1 ed2 = c * s1.metric t ed1 ed2)
    (x : ℤ → Vec3) (dfm : List ℚ) (h : ℚ) (flexAdr : ℕ) (fl fl0 : ℕ → ℚ)
    (t : ℕ) (w : Fin 4) (d : Fin 3) :
    s2.localForce x dfm h flexAdr fl fl0 t w d =
      c * s1.localForce x dfm h flexAdr fl fl0 t w d := by
  have helong : ∀ e, s2.elongation dfm h flexAdr fl fl0 t e =
      s1.elongation dfm h flexAdr fl fl0 t e := by
    intro e
    simp only [Solid.elongation, hf0, hdamping, helements, href, hprev]
  simp only [Solid.localForce, helements]
  rw [Finset.mul_sum]
  refine Finset.sum_congr rfl fun ed1 _ => ?_
  rw [Finset.mul_sum]
  refine Finset.sum_congr rfl fun ed2 _ => ?_
  rw [Finset.mul_sum]
  refine Finset.sum_congr rfl fun i _ => ?_
  split_ifs with hcond
  · rw [helong, hmetric]; ring
  · ring

lemma Compute_qfrc_scale (s1 s2 : Solid) (c : ℚ)
    (hf0 : s2.f0 = s1.f0) (hdamping : s2.damping = s1.damping)
    (hnt : s2.nt = s1.nt) (helements : s2.elements = s1.elements)
    (hedges : s2.edges = s1.edges) (href : s2.reference = s1.reference)
    (hprev : s2.previous = s1.previous) (hdfmd : s2.deformed = s1.deformed)
    (hmetric : ∀ t ed1 ed2, s2.metric t ed1 ed2 = c * s1.metric t ed1 ed2)
    (x : ℤ → Vec3) (h : ℚ) (dofadr : ℤ) (flexAdr : ℕ) (fl fl0 : ℕ → ℚ)
    (qfrc : ℤ → ℚ) (z : ℤ) :
    qfrc z - (s2.Compute x h dofadr flexAdr fl fl0 qfrc).2 z =
      c * (qfrc z - (s1.Compute x h dofadr flexAdr fl fl0 qfrc).2 z) := by
  simp only [Solid.Compute]
  rw [sub_sub_cancel, sub_sub_cancel, Finset.mul_sum, hnt]
  refine Finset.sum_congr rfl fun t ht => ?_
  rw [Finset.mul_sum]
  refine Finset.sum_congr rfl fun w _ => ?_
  rw [Finset.mul_sum]
  refine Finset.sum_congr rfl fun d _ => ?_
  rw [helements, hf0, hedges, hdfmd]
  split_ifs with hcond hf
  · exact localForce_metric_scale s1 s2 c hf0 hdamping helements href hprev hmetric
      x _ h flexAdr fl fl0 t w d
  · exact localForce_metric_scale s1 s2 c hf0 hdamping helements href hprev hmetric
      x _ h flexAdr fl fl0 t w d
  · ring

/-- C5: with the mesh, rest configuration, Poisson ratio, damping,
timestep, and current positions all fixed, running setup and one force
evaluation with Young's modulus `2E` subtracts from every generalized
degree of freedom exactly twice the force contribution obtained with
Young's modulus `E`. -/
theorem C5_young_modulus_scaling (f0 : ℤ) (nu E damp : ℚ) (x0 : ℤ → Vec3)
    (simplex edgeidx : List ℤ) (x : ℤ → Vec3) (h : ℚ) (dofadr : ℤ)
    (flexAdr : ℕ) (fl fl0 : ℕ → ℚ) (qfrc : ℤ → ℚ) (z : ℤ) :
    qfrc z - ((Solid.construct f0 nu (2 * E) damp x0 simplex edgeidx).Compute
        x h dofadr flexAdr fl fl0 qfrc).2 z =
      2 * (qfrc z - ((Solid.construct f0 nu E damp x0 simplex edgeidx).Compute
        x h dofadr flexAdr fl fl0 qfrc).2 z) :=
  Compute_qfrc_scale (Solid.construct f0 nu E damp x0 simplex edgeidx)
    (Solid.construct f0 nu (2 * E) damp x0 simplex edgeidx) 2
    rfl rfl rfl rfl rfl rfl rfl rfl
    (fun _ ed1 ed2 => metricEntry_doubleE x0 _ E nu ed1 ed2)
    x h dofadr flexAdr fl fl0 qfrc z

/-! ### The force evaluator -/

/-- C2: with zero damping coefficient and the instance in free-point
mode, evaluating the forces at exactly the rest-configuration positions
used at setup (so `deformed = reference` and `previous = reference`)
leaves the generalized-force array untouched at every degree of
freedom, for any Young's modulus and Poisson ratio. -/
theorem C2_rest_state_zero_force (f0 : ℤ) (hf0 : f0 < 0) (nu E : ℚ)
    (x0 : ℤ → Vec3) (simplex edgeidx : List ℤ) (h : ℚ) (dofadr : ℤ)
    (flexAdr : ℕ) (fl fl0 : ℕ → ℚ) (qfrc : ℤ → ℚ) (z : ℤ) :
    ((Solid.construct f0 nu E 0 x0 simplex edgeidx).Compute
        x0 h dofadr flexAdr fl fl0 qfrc).2 z = qfrc z := by
  set s := Solid.construct f0 nu E 0 x0 simplex edgeidx with hs
  have hsf0 : s.f0 < 0 := hf0
  have helong : ∀ t : ℕ, ∀ e : Fin 6,
      s.elongation (UpdateSquaredLengths s.edges x0) h flexAdr fl fl0 t e = 0 := by
    intro t e
    have h1 : UpdateSquaredLengths s.edges x0 = s.reference := rfl
    have h2 : s.previous = s.reference := rfl
    have h3 : s.damping = 0 := rfl
    simp only [Solid.elongation, if_pos hsf0, h1, h2, h3]
    simp
  have hlf : ∀ t : ℕ, ∀ w : Fin 4, ∀ d : Fin 3,
      s.localForce x0 (UpdateSquaredLengths s.edges x0) h flexAdr fl fl0 t w d = 0 := by
    intro t w d
    simp only [Solid.localForce]
    refine Finset.sum_eq_zero fun ed1 _ => Finset.sum_eq_zero fun ed2 _ =>
      Finset.sum_eq_zero fun i _ => ?_
    rw [helong]
    split_ifs <;> simp
  simp only [Solid.Compute, if_pos hsf0]
  rw [sub_eq_self]
  refine Finset.sum_eq_zero fun t _ => Finset.sum_eq_zero fun w _ =>
    Finset.sum_eq_zero fun d _ => ?_
  rw [hlf]
  split_ifs <;> rfl

/-- C2 witness: a concrete free-mode instance on one tetrahedron. -/
theorem C2_rest_state_zero_force_witness :
    ((Solid.construct (-1) 0 1 0 (fun n i => (n : ℚ) + (i : ℚ)) [0, 1, 2, 3] []).Compute
        (fun n i => (n : ℚ) + (i : ℚ)) 1 0 0 (fun _ => 0) (fun _ => 0) (fun _ => 0)).2 0 = 0 :=
  C2_rest_state_zero_force (-1) (by decide) 0 1 (fun n i => (n : ℚ) + (i : ℚ))
    [0, 1, 2, 3] [] 1 0 0 (fun _ => 0) (fun _ => 0) (fun _ => 0) 0

/-- C3: the elongation used by the force evaluator is, in free-point
mode, `deformed - reference + (deformed - previous) * (damping/timestep)`
over the instance's own squared-length arrays (with `deformed` the array
just refreshed by this call), and in host-native (flex) mode the square
of the host's current edge length minus the square of the host's rest
edge length, with no damping term. -/
theorem C3_elongation_matches_spec (s : Solid) (x : ℤ → Vec3) (h : ℚ)
    (dofadr : ℤ) (flexAdr : ℕ) (fl fl0 : ℕ → ℚ) (qfrc : ℤ → ℚ)
    (t : ℕ) (e : Fin 6) :
    (s.f0 < 0 →
      s.elongation ((s.Compute x h dofadr flexAdr fl fl0 qfrc).1.deformed)
          h flexAdr fl fl0 t e =
        spec_elongation_free
          (((s.Compute x h dofadr flexAdr fl fl0 qfrc).1.deformed).getD
            ((s.elements.getD t default).edges e) 0)
          (s.reference.getD ((s.elements.getD t default).edges e) 0)
          (s.previous.getD ((s.elements.getD t default).edges e) 0)
          s.damping h) ∧
    (¬ s.f0 < 0 →
      s.elongation ((s.Compute x h dofadr flexAdr fl fl0 qfrc).1.deformed)
          h flexAdr fl fl0 t e =
        spec_elongation_flex (fl ((s.elements.getD t default).edges e + flexAdr))
          (fl0 ((s.elements.getD t default).edges e + flexAdr))) := by
  constructor
  · intro hf
    simp only [Solid.Compute, Solid.elongation, spec_elongation_free, if_pos hf]
  · intro hf
    simp only [Solid.Compute, Solid.elongation, spec_elongation_flex, if_neg hf]

/-- C3 witness: the free-mode formula at a concrete one-edge state. -/
theorem C3_elongation_matches_spec_witness :
    (Solid.mk (-1) 1 1 [⟨fun _ => 0, fun _ => 0⟩] [(0, 1)] 1 (fun _ _ _ => 0)
        [5] [2] [0]).elongation
      (((Solid.mk (-1) 1 1 [⟨fun _ => 0, fun _ => 0⟩] [(0, 1)] 1 (fun _ _ _ => 0)
        [5] [2] [0]).Compute (fun _ _ => 0) 1 0 0 (fun _ => 0) (fun _ => 0)
        (fun _ => 0)).1.deformed) 1 0 (fun _ => 0) (fun _ => 0) 0 0 =
      spec_elongation_free
        ((((Solid.mk (-1) 1 1 [⟨fun _ => 0, fun _ => 0⟩] [(0, 1)] 1 (fun _ _ _ => 0)
          [5] [2] [0]).Compute (fun _ _ => 0) 1 0 0 (fun _ => 0) (fun _ => 0)
          (fun _ => 0)).1.deformed).getD 0 0) 5 2 1 1 :=
  (C3_elongation_matches_spec
    (Solid.mk (-1) 1 1 [⟨fun _ => 0, fun _ => 0⟩] [(0, 1)] 1 (fun _ _ _ => 0)
      [5] [2] [0]) (fun _ _ => 0) 1 0 0 (fun _ => 0) (fun _ => 0) (fun _ => 0)
    0 0).1 (by decide)

/-- C7: a force-evaluation call never changes `reference`; in free-point
mode it ends with `previous = deformed`, and in host-native (flex) mode
it changes neither `previous` nor `deformed`. -/
theorem C7_frame_effects (s : Solid) (x : ℤ → Vec3) (h : ℚ) (dofadr : ℤ)
    (flexAdr : ℕ) (fl fl0 : ℕ → ℚ) (qfrc : ℤ → ℚ) :
    ((s.Compute x h dofadr flexAdr fl fl0 qfrc).1.reference = s.reference) ∧
    (s.f0 < 0 →
      (s.Compute x h dofadr flexAdr fl fl0 qfrc).1.previous =
        (s.Compute x h dofadr flexAdr fl fl0 qfrc).1.deformed) ∧
    (¬ s.f0 < 0 →
      (s.Compute x h dofadr flexAdr fl fl0 qfrc).1.previous = s.previous ∧
      (s.Compute x h dofadr flexAdr fl fl0 qfrc).1.deformed = s.deformed) := by
  refine ⟨rfl, ?_, ?_⟩
  · intro hf
    simp only [Solid.Compute, if_pos hf]
  · intro hf
    constructor <;> simp only [Solid.Compute, if_neg hf]

/-- C7 witness: free-point mode on a concrete one-edge state. -/
theorem C7_frame_effects_witness :
    ((Solid.mk (-1) 1 1 [⟨fun _ => 0, fun _ => 0⟩] [(0, 1)] 1 (fun _ _ _ => 0)
        [5] [2] [0]).Compute (fun _ _ => 0) 1 0 0 (fun _ => 0) (fun _ => 0)
        (fun _ => 0)).1.previous =
      ((Solid.mk (-1) 1 1 [⟨fun _ => 0, fun _ => 0⟩] [(0, 1)] 1 (fun _ _ _ => 0)
        [5] [2] [0]).Compute (fun _ _ => 0) 1 0 0 (fun _ => 0) (fun _ => 0)
        (fun _ => 0)).1.deformed :=
  (C7_frame_effects
    (Solid.mk (-1) 1 1 [⟨fun _ => 0, fun _ => 0⟩] [(0, 1)] 1 (fun _ _ _ => 0)
      [5] [2] [0]) (fun _ _ => 0) 1 0 0 (fun _ => 0) (fun _ => 0)
    (fun _ => 0)).2.1 (by decide)

/-- C8 counterexample: a free-mode edge with positive damping, positive
timestep and increasing squared length (`deformed = 1 > 0 = previous`)
whose squared rest length is larger (`reference = 5`): the undamped
elongation is `-4` with magnitude `4`, the damped elongation is `-3`
with magnitude `3`, so the damping term strictly decreases the
magnitude. -/
theorem C8_counterexample :
    (Solid.mk (-1) 1 1 [⟨fun _ => 0, fun _ => 0⟩] [(0, 1)] 1 (fun _ _ _ => 0)
        [5] [0] [0]).f0 < 0 ∧
    0 < (Solid.mk (-1) 1 1 [⟨fun _ => 0, fun _ => 0⟩] [(0, 1)] 1 (fun _ _ _ => 0)
        [5] [0] [0]).damping ∧
    0 < (1 : ℚ) ∧
    (Solid.mk (-1) 1 1 [⟨fun _ => 0, fun _ => 0⟩] [(0, 1)] 1 (fun _ _ _ => 0)
        [5] [0] [0]).previous.getD 0 0 < [(1 : ℚ)].getD 0 0 ∧
    ¬ (|[(1 : ℚ)].getD 0 0 -
          (Solid.mk (-1) 1 1 [⟨fun _ => 0, fun _ => 0⟩] [(0, 1)] 1 (fun _ _ _ => 0)
            [5] [0] [0]).reference.getD 0 0| <
        |(Solid.mk (-1) 1 1 [⟨fun _ => 0, fun _ => 0⟩] [(0, 1)] 1 (fun _ _ _ => 0)
            [5] [0] [0]).elongation [(1 : ℚ)] 1 0 (fun _ => 0) (fun _ => 0) 0 0|) := by
  refine ⟨by decide, by decide, by decide, by decide, ?_⟩
  have : (Solid.mk (-1) 1 1 [⟨fun _ => 0, fun _ => 0⟩] [(0, 1)] 1 (fun _ _ _ => 0)
      [5] [0] [0] : Solid).elongation [(1 : ℚ)] 1 0 (fun _ => 0) (fun _ => 0) 0 0 =
      -3 := by
    simp only [Solid.elongation]
    norm_num
  rw [this]
  norm_num

/-- C8 amended: in free-point mode with damping coefficient `> 0` and
timestep `> 0`, for any edge whose squared length is increasing
(`deformed > previous`) and is at least its squared rest length
(`deformed ≥ reference`), the damping term makes the magnitude of the
computed elongation strictly larger than the magnitude of the undamped
value `deformed - reference`.  (The claim as stated, without
`deformed ≥ reference`, fails: for a still-compressed edge the positive
damping term cancels part of the negative static elongation.) -/
theorem C8_damping_increases_magnitude (s : Solid) (dfm : List ℚ) (h : ℚ)
    (flexAdr : ℕ) (fl fl0 : ℕ → ℚ) (t : ℕ) (e : Fin 6)
    (hf0 : s.f0 < 0) (hdamp : 0 < s.damping) (hh : 0 < h)
    (hincr : s.previous.getD ((s.elements.getD t default).edges e) 0 <
      dfm.getD ((s.elements.getD t default).edges e) 0)
    (hstretch : s.reference.getD ((s.elements.getD t default).edges e) 0 ≤
      dfm.getD ((s.elements.getD t default).edges e) 0) :
    |dfm.getD ((s.elements.getD t default).edges e) 0 -
        s.reference.getD ((s.elements.getD t default).edges e) 0| <
      |s.elongation dfm h flexAdr fl fl0 t e| := by
  simp only [Solid.elongation, if_pos hf0]
  have hkD : 0 < s.damping / h := div_pos hdamp hh
  have hterm : 0 < (dfm.getD ((s.elements.getD t default).edges e) 0 -
      s.previous.getD ((s.elements.getD t default).edges e) 0) * (s.damping / h) :=
    mul_pos (by linarith) hkD
  rw [abs_of_nonneg (by linarith), abs_of_nonneg (by linarith)]
  linarith

/-- C8 amended witness: stretched edge (`reference = 0 ≤ 1 = deformed`),
increasing (`previous = 0 < 1`), unit damping and timestep. -/
theorem C8_damping_increases_magnitude_witness :
    |[(1 : ℚ)].getD 0 0 -
        (Solid.mk (-1) 1 1 [⟨fun _ => 0, fun _ => 0⟩] [(0, 1)] 1 (fun _ _ _ => 0)
          [0] [0] [0]).reference.getD 0 0| <
      |(Solid.mk (-1) 1 1 [⟨fun _ => 0, fun _ => 0⟩] [(0, 1)] 1 (fun _ _ _ => 0)
          [0] [0] [0]).elongation [(1 : ℚ)] 1 0 (fun _ => 0) (fun _ => 0) 0 0| :=
  C8_damping_increases_magnitude
    (Solid.mk (-1) 1 1 [⟨fun _ => 0, fun _ => 0⟩] [(0, 1)] 1 (fun _ _ _ => 0)
      [0] [0] [0]) [(1 : ℚ)] 1 0 (fun _ => 0) (fun _ => 0) 0 0
    (by decide) (by decide) (by decide) (by decide) (by decide)

/-- C9: after construction the edge list has length `ne`, every
element's six edge ids are `< ne`, and every per-edge array the metric
assembler and force evaluator index (`reference`, `previous`,
`deformed`, and the flat metric index) is in bounds; and every
force-evaluation call preserves this invariant. -/
theorem C9_in_bounds_invariant :
    (∀ (f0 : ℤ) (nu E damp : ℚ) (x0 : ℤ → Vec3) (simplex edgeidx : List ℤ),
      WellFormed (Solid.construct f0 nu E damp x0 simplex edgeidx)) ∧
    (∀ (s : Solid) (x : ℤ → Vec3) (h : ℚ) (dofadr : ℤ) (flexAdr : ℕ)
      (fl fl0 : ℕ → ℚ) (qfrc : ℤ → ℚ), WellFormed s →
      WellFormed ((s.Compute x h dofadr flexAdr fl fl0 qfrc).1)) := by
  constructor
  · intro f0 nu E damp x0 simplex edgeidx
    refine ⟨?_, rfl, ?_, ?_, ?_, ?_, ?_⟩
    · show ((List.range (simplex.length / 4)).map _).length = simplex.length / 4
      simp
    · show (UpdateSquaredLengths (CreateStencils simplex edgeidx).1.edges x0).length = _
      simp only [UpdateSquaredLengths, List.length_map]
      rfl
    · show (UpdateSquaredLengths (CreateStencils simplex edgeidx).1.edges x0).length = _
      simp only [UpdateSquaredLengths, List.length_map]
      rfl
    · show (List.replicate (CreateStencils simplex edgeidx).1.ne (0 : ℚ)).length = _
      simp only [List.length_replicate]
      rfl
    · intro t ht e
      rw [List.mem_range] at ht
      show ((CreateStencils simplex edgeidx).1.elements.getD t default).edges e <
        (CreateStencils simplex edgeidx).1.ne
      rw [edgeId_eq_idxOf simplex edgeidx t ht e, CreateStencils_ne]
      exact idxOf_lt_length ((mem_firstSeen _ _).2 (tetPair_mem_allPairs simplex t ht e))
    · intro t ht ed1 ed2
      rw [List.mem_range] at ht
      have h1 := ed1.isLt
      have h2 := ed2.isLt
      show metricIndex t ed1 ed2 < 36 * ((CreateStencils simplex edgeidx).1.nt)
      have hnt : (CreateStencils simplex edgeidx).1.nt = simplex.length / 4 := rfl
      have ht' : t < simplex.length / 4 := ht
      rw [hnt, metricIndex]
      omega
  · intro s x h dofadr flexAdr fl fl0 qfrc hs
    obtain ⟨h1, h2, h3, h4, h5, h6, h7⟩ := hs
    refine ⟨h1, h2, h3, ?_, ?_, h6, h7⟩
    · show (if s.f0 < 0 then
          (if s.f0 < 0 then UpdateSquaredLengths s.edges x else s.deformed)
        else s.previous).length = s.ne
      split_ifs with hf
      · simp only [UpdateSquaredLengths, List.length_map]
        exact h2
      · exact h4
    · show (if s.f0 < 0 then UpdateSquaredLengths s.edges x else s.deformed).length = s.ne
      split_ifs with hf
      · simp only [UpdateSquaredLengths, List.length_map]
        exact h2
      · exact h5

/-- C9 witness: the invariant holds concretely for a one-tetrahedron
instance and is carried through one force evaluation. -/
theorem C9_in_bounds_invariant_witness :
    WellFormed (((Solid.construct (-1) 0 1 0 (fun _ _ => 0) [0, 1, 2, 3] []).Compute
      (fun _ _ => 0) 1 0 0 (fun _ => 0) (fun _ => 0) (fun _ => 0)).1) :=
  C9_in_bounds_invariant.2 (Solid.construct (-1) 0 1 0 (fun _ _ => 0) [0, 1, 2, 3] [])
    (fun _ _ => 0) 1 0 0 (fun _ => 0) (fun _ => 0) (fun _ => 0) (by decide)

end MujocoSolid
